import Mathlib

/-!
Verification of the matching and cost-normalization core of the
Pharma-Procure Optimizer repository.

The Python sources embedded here are `logic.py` (parse_pack_size,
calculate_euc, fuzzy_match), `simplify_names.py` (simplify_product_name)
and the configuration constants of `config.py`.  Numbers that Python holds
as floats are modelled as exact rationals; Python `round` is modelled as
round-half-to-even on those rationals.  The three rapidfuzz scorers used by
`fuzzy_match` are an external library dependency; they are modelled from
the documented rapidfuzz algorithms (normalized Indel similarity over
whitespace tokens), and every concrete evaluation below only exercises
them on identical strings, where each of the documented algorithms
returns 100.

Because the library multiplication and division on `Rat` are marked
irreducible, the embedding uses its own kernel-reducible rational
operations (`qAdd`, `qMul`, `qDiv`, ...) built on `Rat.normalize`; the
bridge lemmas `qAdd_eq`, `qMul_eq`, `qDiv_eq`, ... prove them equal to the
standard field operations, so the theorems below reason with the ordinary
`Mathlib` order and field lemmas while concrete runs still evaluate by
`decide`.
-/

/-! ## Kernel-reducible rational arithmetic -/

/-- The rational `n / 1` built directly by the constructor. -/
def qOfInt (n : ℤ) : ℚ := ⟨n, 1, Nat.one_ne_zero, Nat.gcd_one_right _⟩

/-- The rational `n / 1` for a natural `n`. -/
def qOfNat (n : ℕ) : ℚ := qOfInt n

/-- The rational one half, built directly by the constructor. -/
def qHalf : ℚ := ⟨1, 2, by decide, by decide⟩

/-- Addition on `ℚ` by cross multiplication and renormalization. -/
def qAdd (a b : ℚ) : ℚ :=
  Rat.normalize (a.num * b.den + b.num * a.den) (a.den * b.den)
    (Nat.mul_ne_zero a.den_nz b.den_nz)

/-- Negation on `ℚ` by renormalization. -/
def qNeg (a : ℚ) : ℚ := Rat.normalize (-a.num) a.den a.den_nz

/-- Subtraction on `ℚ`. -/
def qSub (a b : ℚ) : ℚ := qAdd a (qNeg b)

/-- Multiplication on `ℚ` by renormalization. -/
def qMul (a b : ℚ) : ℚ :=
  Rat.normalize (a.num * b.num) (a.den * b.den)
    (Nat.mul_ne_zero a.den_nz b.den_nz)

/-- Division on `ℚ` by renormalization; division by zero yields zero,
matching the `Mathlib` convention (the embedded code never divides by
zero). -/
def qDiv (a b : ℚ) : ℚ :=
  if h : b.num = 0 then qOfNat 0
  else
    Rat.normalize ((if 0 ≤ b.num then a.num else -a.num) * b.den)
      (a.den * b.num.natAbs)
      (Nat.mul_ne_zero a.den_nz (Int.natAbs_ne_zero.mpr h))

/-- Absolute value on `ℚ`. -/
def qAbs (a : ℚ) : ℚ := if 0 ≤ a.num then a else qNeg a

/-! ## Python string primitives

The inputs handled by the repository are ASCII spreadsheet text, so
Python `str.upper`, `str.lower`, `str.split`, `\d`, `\s` and `\w` are
modelled at ASCII precision. -/

/-- Python whitespace, as `str.split` and the regex class `\s` see it. -/
def pyIsSpace (c : Char) : Bool :=
  c = ' ' || c = '\t' || c = '\n' || c = Char.ofNat 13 ||
  c = Char.ofNat 11 || c = Char.ofNat 12

/-- The regex class `\d` (code points 48 to 57). -/
def isPyDigit (c : Char) : Bool := 48 ≤ c.toNat && c.toNat ≤ 57

/-- The regex class `\w` (a word character). -/
def isPyWord (c : Char) : Bool := c.isAlphanum || c = '_'

/-- Python `str.upper` on one character. -/
def pyToUpper (c : Char) : Char := c.toUpper

/-- Python `str.lower` on one character. -/
def pyToLower (c : Char) : Char := c.toLower

/-- Python `str.upper`. -/
def pyUpperL (l : List Char) : List Char := l.map pyToUpper

/-- Python `str.lower`. -/
def pyLowerL (l : List Char) : List Char := l.map pyToLower

/-- Python `str.strip`. -/
def pyStripL (l : List Char) : List Char :=
  ((l.dropWhile pyIsSpace).reverse.dropWhile pyIsSpace).reverse

/-- The numeric value of a run of decimal digits (Python `int(...)`). -/
def digitsToNat (ds : List Char) : Nat :=
  ds.foldl (fun acc c => 10 * acc + (c.toNat - 48)) 0

/-- Split a list at the longest prefix satisfying a predicate (the
regex semantics of a greedy character-class run). -/
def spanP (p : Char → Bool) : List Char → List Char × List Char
  | [] => ([], [])
  | c :: r =>
    if p c then
      let t := spanP p r
      (c :: t.1, t.2)
    else ([], c :: r)

/-- Drop a literal prefix, returning the remainder on success. -/
def stripPrefixCh : List Char → List Char → Option (List Char)
  | [], l => some l
  | _ :: _, [] => none
  | p :: ps, c :: cs => if p = c then stripPrefixCh ps cs else none

/-- Drop a literal prefix case-insensitively (the pattern is given in
lower case), returning the remainder on success. -/
def stripPrefixCI : List Char → List Char → Option (List Char)
  | [], l => some l
  | _ :: _, [] => none
  | p :: ps, c :: cs => if pyToLower c = p then stripPrefixCI ps cs else none

/-- Python `str.split()`: split on runs of whitespace, no empty parts.
The first argument is the text, the accumulator collects the current word
reversed. -/
def splitWsAux : List Char → List Char → List (List Char)
  | [], cur => if cur.isEmpty then [] else [cur.reverse]
  | c :: r, cur =>
    if pyIsSpace c then
      if cur.isEmpty then splitWsAux r [] else cur.reverse :: splitWsAux r []
    else splitWsAux r (c :: cur)

/-- Python `str.split()`. -/
def splitWs (l : List Char) : List (List Char) := splitWsAux l []

/-- Join words with single spaces (`" ".join`). -/
def joinSp : List (List Char) → List Char
  | [] => []
  | w :: ws =>
    match ws with
    | [] => w
    | _ :: _ => w ++ ' ' :: joinSp ws

/-- Decimal digits of a natural number, with explicit fuel (the number
itself suffices). -/
def natToCharsAux : Nat → Nat → List Char
  | 0, _ => []
  | f + 1, n =>
    if n = 0 then [] else natToCharsAux f (n / 10) ++ [Char.ofNat (48 + n % 10)]

/-- Python `str` of a natural number. -/
def natToChars (n : Nat) : List Char :=
  if n = 0 then ['0'] else natToCharsAux n n

/-! ## parse_pack_size (logic.py lines 12 to 34) -/

/-- The value passed to `parse_pack_size`: Python `None`, a string, or a
number (spreadsheet integers; the function stringifies its argument). -/
inductive PackInput where
  | pnone
  | pstr (s : String)
  | pint (n : Int)
deriving DecidableEq

/-- Python falsiness of the pack-size argument (`if not pack_input`):
`None`, the empty string and the number zero are falsy. -/
def packFalsy : PackInput → Bool
  | .pnone => true
  | .pstr s => s = ""
  | .pint n => n = 0

/-- Python `str(...)` of the pack-size argument. -/
def pyStrOfPack : PackInput → List Char
  | .pnone => "None".data
  | .pstr s => s.data
  | .pint n => if n < 0 then '-' :: natToChars n.natAbs else natToChars n.toNat

/-- `re.match` of the pattern digits, optional spaces, `x` or `*`,
optional spaces, digits — anchored at the start of the string, greedy
digit runs, returning the two captured integers. -/
def matchPackX (l : List Char) : Option (Nat × Nat) :=
  let p1 := spanP isPyDigit l
  if p1.1.isEmpty then none
  else
    match p1.2.dropWhile pyIsSpace with
    | [] => none
    | c :: r3 =>
      if c = 'x' ∨ c = '*' then
        let p2 := spanP isPyDigit (r3.dropWhile pyIsSpace)
        if p2.1.isEmpty then none else some (digitsToNat p1.1, digitsToNat p2.1)
      else none

/-- `re.search` of a digit run: the first maximal run of digits anywhere
in the string, as an integer. -/
def firstIntSub : List Char → Option Nat
  | [] => none
  | c :: r =>
    if isPyDigit c then some (digitsToNat (spanP isPyDigit (c :: r)).1)
    else firstIntSub r

/-- `parse_pack_size` of logic.py: falsy input gives 1; a leading
`<int>x<int>` or `<int>*<int>` pattern gives the product; otherwise the
first integer substring; otherwise 1.  The input is lower-cased first. -/
def parse_pack_size (pack_input : PackInput) : Nat :=
  if packFalsy pack_input then 1
  else
    let s := pyLowerL (pyStrOfPack pack_input)
    match matchPackX s with
    | some (a, b) => a * b
    | none =>
      match firstIntSub s with
      | some n => n
      | none => 1

/-! ## Bonus interpretation inside calculate_euc (logic.py lines 52 to 69) -/

/-- `re.match` of digits, `+` or `/`, digits — anchored at the start,
trailing text ignored, returning the buy and free quantities. -/
def matchPlusBonus (l : List Char) : Option (Nat × Nat) :=
  let p1 := spanP isPyDigit l
  if p1.1.isEmpty then none
  else
    match p1.2 with
    | [] => none
    | c :: r2 =>
      if c = '+' ∨ c = '/' then
        let p2 := spanP isPyDigit r2
        if p2.1.isEmpty then none else some (digitsToNat p1.1, digitsToNat p2.1)
      else none

/-- `re.match` of `Bonus`, optional whitespace, digits, `%` — anchored at
the start, case-insensitive, no whitespace allowed between the digits and
the percent sign, trailing text ignored. -/
def matchPercBonus (l : List Char) : Option Nat :=
  match stripPrefixCI "bonus".data l with
  | none => none
  | some r =>
    let p := spanP isPyDigit (r.dropWhile pyIsSpace)
    if p.1.isEmpty then none
    else
      match p.2 with
      | '%' :: _ => some (digitsToNat p.1)
      | _ => none

/-- The factor by which `calculate_euc` multiplies the pack price: the
bonus branch of logic.py factored as price times this value.  A `buy+free`
or `buy/free` prefix with `buy > 0` gives `buy / (buy + free)`; a percent
match overrides it with `100 / (100 + percent)`; everything else (absent
or empty text, `buy = 0`, unrecognized text) leaves the price unchanged. -/
def bonusFactor : Option String → ℚ
  | none => qOfNat 1
  | some s =>
    if s = "" then qOfNat 1
    else
      let afterPlus : ℚ :=
        match matchPlusBonus s.data with
        | some (buy_qty, free_qty) =>
          if 0 < buy_qty then qDiv (qOfNat buy_qty) (qOfNat (buy_qty + free_qty))
          else qOfNat 1
        | none => qOfNat 1
      match matchPercBonus s.data with
      | some percent => qDiv (qOfNat 100) (qOfNat (100 + percent))
      | none => afterPlus

/-! ## Python rounding and calculate_euc (logic.py lines 36 to 77) -/

/-- The floor of a rational as an integer (numerator divided by
denominator with floor division). -/
def ratFloorZ (q : ℚ) : ℤ := q.num / (q.den : ℤ)

/-- Python `round(q)` to an integer: round half to even. -/
def pyRoundInt (q : ℚ) : ℤ :=
  let f := ratFloorZ q
  let frac := qSub q (qOfInt f)
  if frac < qHalf then f
  else if qHalf < frac then f + 1
  else if f % 2 = 0 then f else f + 1

/-- Python `round(q, 2)`. -/
def pyRound2 (q : ℚ) : ℚ :=
  qDiv (qOfInt (pyRoundInt (qMul q (qOfNat 100)))) (qOfNat 100)

/-- Python `round(q, 4)`. -/
def pyRound4 (q : ℚ) : ℚ :=
  qDiv (qOfInt (pyRoundInt (qMul q (qOfNat 10000)))) (qOfNat 10000)

/-- `calculate_euc` of logic.py: the effective pack price after the bonus
branch, the constant zero margin, and the normalized unit cost, each
rounded as the source rounds them.  The pack size is clamped to at least
one before dividing. -/
def calculate_euc (price : ℚ) (pack_size : ℤ) (bonus_string : Option String) :
    ℚ × ℚ × ℚ :=
  let effective_pack_price := qMul price (bonusFactor bonus_string)
  let euc := effective_pack_price
  let margin := qOfNat 0
  let normalized_cost := qDiv euc (qOfInt (max 1 pack_size))
  (pyRound4 euc, pyRound2 margin, pyRound4 normalized_cost)

/-! ## simplify_product_name (simplify_names.py lines 6 to 64)

Each noise pattern of the source is embedded as a matcher that, given the
character preceding the current position (for word boundaries) and the
remaining text, returns the last matched character and the remainder when
the pattern matches here.  `reSubAll` drives a matcher over the string the
way `re.sub(pattern, space, name)` does: scanning left to right, replacing
each non-overlapping match with one space.  The name is upper-cased before
the substitutions, so the IGNORECASE flag of the source is vacuous and the
patterns are embedded in upper case. -/

/-- One matcher: previous original character, remaining text; on success
the last character of the match and the remaining text after it. -/
abbrev NoiseMatcher := Option Char → List Char → Option (Char × List Char)

/-- Does an optional character count as a word character (start of string
counts as a non-word position)? -/
def prevIsWord : Option Char → Bool
  | some c => isPyWord c
  | none => false

/-- Is the head of the remainder a word character (end of string counts
as a non-word position)? -/
def headIsWord : List Char → Bool
  | [] => false
  | c :: _ => isPyWord c

/-- A word-bounded literal of word characters, such as the BP and USP
patterns. -/
def tryWordLit (w : List Char) : NoiseMatcher := fun prev l =>
  if prevIsWord prev then none
  else
    match stripPrefixCh w l with
    | some rest => if headIsWord rest then none else some (w.getLastD ' ', rest)
    | none => none

/-- A literal ending in a dot with word boundaries on both sides, such as
the dotted B.P. pattern: the trailing boundary after a dot requires the
next character to be a word character. -/
def tryDotLit (w : List Char) : NoiseMatcher := fun prev l =>
  if prevIsWord prev then none
  else
    match stripPrefixCh w l with
    | some rest => if headIsWord rest then some ('.', rest) else none
    | none => none

/-- A plain literal with no boundaries. -/
def tryLit (w : List Char) : NoiseMatcher := fun _ l =>
  match stripPrefixCh w l with
  | some rest => some (w.getLastD ' ', rest)
  | none => none

/-- The comma-to-end pattern: from a comma, consume the rest of the
line. -/
def tryCommaTail : NoiseMatcher := fun _ l =>
  match l with
  | ',' :: _ => some (',', [])
  | _ => none

/-- A digit run followed by a literal, such as the ML PLASTIC BAG
patterns (the literal begins with a non-digit, so the greedy digit run
needs no backtracking). -/
def tryDigitsLit (w : List Char) : NoiseMatcher := fun _ l =>
  let p := spanP isPyDigit l
  if p.1.isEmpty then none
  else
    match stripPrefixCh w p.2 with
    | some rest => some (w.getLastD ' ', rest)
    | none => none

/-- A digit run followed by a literal with a trailing word boundary, such
as the pack-count suffix patterns. -/
def tryDigitsLitB (w : List Char) : NoiseMatcher := fun _ l =>
  let p := spanP isPyDigit l
  if p.1.isEmpty then none
  else
    match stripPrefixCh w p.2 with
    | some rest => if headIsWord rest then none else some (w.getLastD ' ', rest)
    | none => none

/-- The concentration pattern: word boundary, IN, whitespace, digits with
an optional decimal part, a percent sign, whitespace, W/V, word
boundary. -/
def tryInWV : NoiseMatcher := fun prev l =>
  if prevIsWord prev then none
  else
    match stripPrefixCh "IN".data l with
    | none => none
    | some r1 =>
      let sp := spanP pyIsSpace r1
      if sp.1.isEmpty then none
      else
        let d1 := spanP isPyDigit sp.2
        if d1.1.isEmpty then none
        else
          let afterNum : Option (List Char) :=
            match d1.2 with
            | '.' :: r3 =>
              match (spanP isPyDigit r3).2 with
              | '%' :: r4 => some r4
              | _ => none
            | '%' :: r4 => some r4
            | _ => none
          match afterNum with
          | none => none
          | some r5 =>
            let sp2 := spanP pyIsSpace r5
            if sp2.1.isEmpty then none
            else
              match stripPrefixCh "W/V".data sp2.2 with
              | some rest => if headIsWord rest then none else some ('V', rest)
              | none => none

/-- The bare W/V pattern with word boundaries on both sides. -/
def tryWV : NoiseMatcher := fun prev l =>
  if prevIsWord prev then none
  else
    match stripPrefixCh "W/V".data l with
    | some rest => if headIsWord rest then none else some ('V', rest)
    | none => none

/-- Drive one matcher over the text like `re.sub(pattern, space, name)`:
each match is replaced by a single space and scanning resumes after it,
with word boundaries judged against the original characters.  The fuel is
the length of the text; every match consumes at least one character, so
the fuel never runs out. -/
def reSubAllF (try_ : NoiseMatcher) : Nat → Option Char → List Char → List Char
  | 0, _, l => l
  | _ + 1, _, [] => []
  | fuel + 1, prev, c :: rest =>
    match try_ prev (c :: rest) with
    | some (lastc, rest2) => ' ' :: reSubAllF try_ fuel (some lastc) rest2
    | none => c :: reSubAllF try_ fuel (some c) rest

/-- `re.sub(pattern, space, name)` for one matcher. -/
def reSubAll (try_ : NoiseMatcher) (l : List Char) : List Char :=
  reSubAllF try_ l.length none l

/-- An apostrophe, written by code point. -/
def apoC : Char := Char.ofNat 39

/-- The noise patterns of simplify_names.py, in source order. -/
def noiseMatchers : List NoiseMatcher :=
  [tryWordLit "BP".data,
   tryWordLit "USP".data,
   tryDotLit "B.P.".data,
   tryDotLit "U.S.P.".data,
   tryLit "INFUSION/SOLUTION FOR".data,
   tryLit "INFUSION FOR".data,
   tryLit "SOLUTION FOR".data,
   tryLit "INJECTION FOR".data,
   tryCommaTail,
   tryDigitsLit "ML PLASTIC BAG".data,
   tryDigitsLit "ML PLASTIC BOTTLE".data,
   tryDigitsLit "ML GLASS VIAL".data,
   tryDigitsLit "ML GLASS BOTTLE".data,
   tryLit "PLASTIC BAG".data,
   tryLit "PLASTIC BOTTLE".data,
   tryLit "GLASS VIAL".data,
   tryLit "GLASS BOTTLE".data,
   tryLit "BLISTER PACK".data,
   tryLit "STRIP".data,
   tryDigitsLitB [apoC, 'S'],
   tryDigitsLitB ['S']]

/-- Apply every noise pattern in order, each as one full `re.sub` pass. -/
def applyNoise (l : List Char) : List Char :=
  noiseMatchers.foldl (fun s m => reSubAll m s) l

/-- The dosage-form keywords of the truncation regex, in alternation
order. -/
def kwAlts : List (List Char) :=
  ["INJECTION".data, "INFUSION".data, "TABLET".data, "CAPSULE".data,
   "SYRUP".data, "SUSPENSION".data]

/-- The first keyword of the alternation that is a prefix of the text. -/
def firstKwPrefix (l : List Char) : Option (List Char) :=
  kwAlts.find? (fun kw => (stripPrefixCh kw l).isSome)

/-- The truncation regex of simplify_names.py: lazily scan for the first
position where a whitespace run is followed by a dosage-form keyword; on
a match the result is the text before the run, one space, and the matched
keyword (the keyword alternation has no word boundary, so TABLETS matches
as TABLET and the trailing S is dropped).  The accumulator holds the
scanned text reversed. -/
def findCoreAux : List Char → List Char → Option (List Char)
  | _, [] => none
  | acc, c :: rest =>
    if pyIsSpace c then
      match firstKwPrefix ((c :: rest).dropWhile pyIsSpace) with
      | some kw => some (acc.reverse ++ ' ' :: kw)
      | none => findCoreAux (c :: acc) rest
    else findCoreAux (c :: acc) rest

/-- `simplify_product_name` of simplify_names.py: falsy input gives the
empty string; otherwise upper-case and trim, apply the noise
substitutions, the two W/V substitutions, collapse whitespace, truncate
at the first dosage-form keyword when one follows whitespace, and trim
again. -/
def simplify_product_name (raw_name : String) : String :=
  if raw_name = "" then ""
  else
    let name0 := pyStripL (pyUpperL raw_name.data)
    let name1 := applyNoise name0
    let name2 := reSubAll tryInWV name1
    let name3 := reSubAll tryWV name2
    let name4 := joinSp (splitWs name3)
    let name5 :=
      match findCoreAux [] name4 with
      | some core => core
      | none => name4
    String.mk (pyStripL name5)

/-- The raw name of the simplification truncation scenario, its
apostrophe written by code point. -/
def scenarioRawName : String :=
  "PARACETAMOL 500MG TABLETS BP, 24" ++ String.mk [apoC] ++ "S Blister Pack"

/-! ## Fuzzy matching (logic.py lines 80 to 194)

The rows `fuzzy_match` reads from the database are embedded as the two
record types below, carrying exactly the columns the function selects.
The primary-key ids of the master rows are assumed distinct, as the
database guarantees, so the dictionary comprehensions of the source keep
every row in list order. -/

/-- The columns of a master_products row that `fuzzy_match` selects. -/
structure MasterProduct where
  id : Nat
  simplified_name : Option String
  product_name : String
  standard_cost : Option ℚ
deriving DecidableEq

/-- A product_aliases row. -/
structure ProductAlias where
  alias_name : String
  master_product_id : Nat
deriving DecidableEq

/-- The result dictionary of `fuzzy_match`. -/
structure MatchResult where
  match_name : String
  master_id : Nat
  score : ℚ
  confidence : String
deriving DecidableEq

/-! ### Configuration constants (config.py) -/

def MATCH_CUTOFF_TOKEN_SORT : ℚ := qOfNat 85

def MATCH_CUTOFF_TOKEN_SET : ℚ := qOfNat 85

def MATCH_CUTOFF_PARTIAL : ℚ := qOfNat 90

def MATCH_SCORE_TOLERANCE : ℚ := qOfNat 3

def CONFIDENCE_HIGH_SCORE : ℚ := qOfNat 95

def CONFIDENCE_MEDIUM_SCORE : ℚ := qOfNat 85

/-! ### The rapidfuzz scorers

Modelled from the documented rapidfuzz algorithms: all three return the
normalized Indel similarity `100 * (lensum - distance) / lensum` of two
derived strings, where the Indel distance is computed from the longest
common subsequence.  Identical inputs score 100 under each of them, which
is the only fact the concrete runs below rely on. -/

/-- One row update of the longest-common-subsequence table: walk the
second string, carrying the remaining old row, the diagonal entry and the
entry just computed. -/
def lcsStepGo (x : Char) : List Char → List Nat → Nat → Nat → List Nat
  | [], _, _, _ => []
  | y :: ys, oldrest, diag, left =>
    let rj := oldrest.headD 0
    let nj := if x = y then diag + 1 else max left rj
    nj :: lcsStepGo x ys oldrest.tail rj nj

/-- The next table row for one character of the first string. -/
def lcsStep (ys : List Char) (row : List Nat) (x : Char) : List Nat :=
  0 :: lcsStepGo x ys row.tail (row.headD 0) 0

/-- The length of the longest common subsequence. -/
def lcsLenL (a b : List Char) : Nat :=
  (a.foldl (lcsStep b) (List.replicate (b.length + 1) 0)).getLastD 0

/-- The Indel distance (Levenshtein with insertions and deletions only). -/
def indelDist (a b : List Char) : Nat := a.length + b.length - 2 * lcsLenL a b

/-- Normalized Indel similarity scaled to 0..100 (the rapidfuzz
`ratio`). -/
def ratioLC (a b : List Char) : ℚ :=
  let ls := a.length + b.length
  if ls = 0 then qOfNat 100
  else qDiv (qOfNat (100 * (ls - indelDist a b))) (qOfNat ls)

/-- Lexicographic strict comparison of words by code point (Python
string `<`). -/
def lexLtB : List Char → List Char → Bool
  | [], [] => false
  | [], _ :: _ => true
  | _ :: _, [] => false
  | a :: as_, b :: bs => if a = b then lexLtB as_ bs else decide (a < b)

/-- Stable insertion into an ascending word list (Python `sorted`). -/
def insertWordAsc (x : List Char) : List (List Char) → List (List Char)
  | [] => [x]
  | y :: ys => if lexLtB y x then y :: insertWordAsc x ys else x :: y :: ys

/-- Stable ascending sort of words (Python `sorted`). -/
def sortWordsAsc : List (List Char) → List (List Char)
  | [] => []
  | x :: xs => insertWordAsc x (sortWordsAsc xs)

/-- Remove adjacent duplicates of a sorted word list (the set step of the
token-set scorer). -/
def dedupAdj : List (List Char) → List (List Char)
  | [] => []
  | [x] => [x]
  | x :: y :: r => if x = y then dedupAdj (y :: r) else x :: dedupAdj (y :: r)

/-- `fuzz.token_sort_ratio`: ratio of the whitespace tokens of each side,
sorted and rejoined with single spaces. -/
def fuzzTokenSortQ (s1 s2 : String) : ℚ :=
  ratioLC (joinSp (sortWordsAsc (splitWs s1.data)))
    (joinSp (sortWordsAsc (splitWs s2.data)))

/-- Larger of two rationals. -/
def qMax (a b : ℚ) : ℚ := if a ≤ b then b else a

/-- `fuzz.token_set_ratio`: sorted unique tokens; the largest ratio among
intersection versus intersection plus each difference, and the two
combined strings against each other. -/
def fuzzTokenSetQ (s1 s2 : String) : ℚ :=
  let ta := dedupAdj (sortWordsAsc (splitWs s1.data))
  let tb := dedupAdj (sortWordsAsc (splitWs s2.data))
  let sect := ta.filter (fun t => tb.contains t)
  let da := ta.filter (fun t => !(tb.contains t))
  let db := tb.filter (fun t => !(ta.contains t))
  let j0 := joinSp sect
  let j1 := joinSp (sect ++ da)
  let j2 := joinSp (sect ++ db)
  qMax (qMax (ratioLC j0 j1) (ratioLC j0 j2)) (ratioLC j1 j2)

/-- `fuzz.partial_ratio`: best ratio of the shorter string against the
windows of the longer string. -/
def fuzzPartialQ (s1 s2 : String) : ℚ :=
  let a := s1.data
  let b := s2.data
  let sh := if a.length ≤ b.length then a else b
  let lo := if a.length ≤ b.length then b else a
  ((List.range (lo.length + 1)).map
    (fun i => ratioLC sh ((lo.drop i).take sh.length))).foldl qMax (qOfNat 0)

/-! ### Candidate generation and disambiguation -/

/-- One candidate: master id, score, scorer name (`scorer.__name__`). -/
abbrev Cand := Nat × ℚ × String

/-- Stable insertion into a score-descending candidate list (the
candidate being inserted precedes the list elements in the original
order, so it lands before any candidate of equal score). -/
def insertCandDesc (x : Cand) : List Cand → List Cand
  | [] => [x]
  | y :: ys => if y.2.1 ≤ x.2.1 then x :: y :: ys else y :: insertCandDesc x ys

/-- Stable sort by score descending (Python `list.sort` with
`reverse=True` is stable). -/
def sortCandDesc : List Cand → List Cand
  | [] => []
  | x :: xs => insertCandDesc x (sortCandDesc xs)

/-- The searchable text of a master row: `simplified_name or
product_name`, upper-cased (Python `or` also skips an empty simplified
name). -/
def searchText (m : MasterProduct) : String :=
  String.mk (pyUpperL
    (match m.simplified_name with
     | some s => if s = "" then m.product_name.data else s.data
     | none => m.product_name.data))

/-- The candidates of one scorer before the result limit: every master
row whose searchable text scores at least the cutoff, in row order. -/
def extractPool (query : String) (masters : List MasterProduct)
    (scorer : String → String → ℚ) (cutoff : ℚ) (sname : String) : List Cand :=
  masters.filterMap (fun m =>
    let sc := scorer query (searchText m)
    if cutoff ≤ sc then some (m.id, sc, sname) else none)

/-- `process.extract(..., score_cutoff=cutoff, limit=10)`: the qualifying
rows sorted by score descending, cut to the best ten. -/
def extractTop (query : String) (masters : List MasterProduct)
    (scorer : String → String → ℚ) (cutoff : ℚ) (sname : String) : List Cand :=
  (sortCandDesc (extractPool query masters scorer cutoff sname)).take 10

/-- The scorer list of `fuzzy_match` with the per-scorer cutoffs, in
source order. -/
def scorerList : List ((String → String → ℚ) × ℚ × String) :=
  [(fuzzTokenSortQ, MATCH_CUTOFF_TOKEN_SORT, "token_sort_ratio"),
   (fuzzTokenSetQ, MATCH_CUTOFF_TOKEN_SET, "token_set_ratio"),
   (fuzzPartialQ, MATCH_CUTOFF_PARTIAL, "partial_ratio")]

/-- The merged candidate list of `fuzzy_match`: the three per-scorer
extracts concatenated in scorer order, then stably sorted by score
descending. -/
def all_candidates (query : String) (masters : List MasterProduct) : List Cand :=
  sortCandDesc
    ((scorerList.map (fun t => extractTop query masters t.1 t.2.1 t.2.2)).flatten)

/-- The full product name for a master id (`master_full_names[...]`; the
id always comes from the rows, so the default is never read). -/
def masterFullName (masters : List MasterProduct) (i : Nat) : String :=
  match masters.find? (fun m => m.id == i) with
  | some m => m.product_name
  | none => ""

/-- The price of a master id as the disambiguation loop reads it:
`master_prices.get(master_id, 0) or 0`, so a missing id and a missing
standard cost both compare as zero. -/
def masterCost (masters : List MasterProduct) (i : Nat) : ℚ :=
  match masters.find? (fun m => m.id == i) with
  | some m =>
    match m.standard_cost with
    | some c => c
    | none => qOfNat 0
  | none => qOfNat 0

/-- One step of the price-disambiguation loop: keep the running best id
and best difference, replacing them on a strictly smaller difference. -/
def bestStep (supplier_price : ℚ) (cost : Nat → ℚ)
    (st : Option (Nat × ℚ)) (c : Cand) : Option (Nat × ℚ) :=
  let price_diff := qAbs (qSub supplier_price (cost c.1))
  match st with
  | none => some (c.1, price_diff)
  | some (b, bd) => if price_diff < bd then some (c.1, price_diff) else some (b, bd)

/-- The close matches: candidates within the configured tolerance of the
top score. -/
def closeMatches (cands : List Cand) (top_score : ℚ) : List Cand :=
  cands.filter (fun c => qSub top_score MATCH_SCORE_TOLERANCE ≤ c.2.1)

/-- The confidence bucket of a final score. -/
def confidenceOf (final_score : ℚ) : String :=
  if CONFIDENCE_HIGH_SCORE ≤ final_score then "High"
  else if CONFIDENCE_MEDIUM_SCORE ≤ final_score then "Medium"
  else "Low"

/-- `fuzzy_match` of logic.py.  The alias query returns the first alias
row whose text equals the raw name exactly; its master row is then read
through the foreign key (the relationship the database guarantees — a
dangling alias, which cannot occur in a consistent snapshot, is embedded
as the no-match result).  Otherwise the raw name is upper-cased and
trimmed, the merged candidate list is built, and a supplied positive
price disambiguates between close matches; the unreachable fallback arms
of the embedding mirror expressions the source only evaluates on
non-empty lists. -/
def fuzzy_match (raw_name : String) (masters : List MasterProduct)
    (aliases : List ProductAlias) (supplier_price : Option ℚ) :
    Option MatchResult :=
  match aliases.find? (fun a => a.alias_name == raw_name) with
  | some al =>
    match masters.find? (fun m => m.id == al.master_product_id) with
    | some m => some ⟨m.product_name, m.id, qOfNat 100, "High (Alias)"⟩
    | none => none
  | none =>
    if masters.isEmpty then none
    else
      let raw_name_normalized := String.mk (pyStripL (pyUpperL raw_name.data))
      match all_candidates raw_name_normalized masters with
      | [] => none
      | top :: rest =>
        let sel : Nat × ℚ :=
          match supplier_price with
          | some p =>
            if qOfNat 0 < p then
              let close := closeMatches (top :: rest) top.2.1
              if 1 < close.length then
                match close.foldl (bestStep p (masterCost masters)) none with
                | some (best_match_id, _) =>
                  (best_match_id,
                   match close.find? (fun c => c.1 == best_match_id) with
                   | some c => c.2.1
                   | none => qOfNat 0)
                | none => (top.1, top.2.1)
              else
                match close with
                | c :: _ => (c.1, c.2.1)
                | [] => (top.1, top.2.1)
            else (top.1, top.2.1)
          | none => (top.1, top.2.1)
        some ⟨masterFullName masters sel.1, sel.1, pyRound2 sel.2,
              confidenceOf sel.2⟩

/-! ### Concrete snapshots used by the spot checks and counterexamples -/

/-- Two catalog rows with identical canonical names and standard costs
10 and 35. -/
def catPair : List MasterProduct :=
  [⟨1, some "X", "PANADOL ADVANCE 24", some (qOfNat 10)⟩,
   ⟨2, some "X", "PANADOL ADVANCE 96", some (qOfNat 35)⟩]

/-- Eleven catalog rows with identical canonical names, all meeting every
scorer cutoff for the query X. -/
def catEleven : List MasterProduct :=
  [⟨1, some "X", "P1", none⟩, ⟨2, some "X", "P2", none⟩,
   ⟨3, some "X", "P3", none⟩, ⟨4, some "X", "P4", none⟩,
   ⟨5, some "X", "P5", none⟩, ⟨6, some "X", "P6", none⟩,
   ⟨7, some "X", "P7", none⟩, ⟨8, some "X", "P8", none⟩,
   ⟨9, some "X", "P9", none⟩, ⟨10, some "X", "P10", none⟩,
   ⟨11, some "X", "P11", none⟩]

/-- One catalog row. -/
def catOne : List MasterProduct := [⟨1, some "X", "PANADOL ONE", none⟩]

/-! ## Bridge lemmas: the kernel-reducible rational operations agree with
the standard field operations of `ℚ` -/

theorem qOfInt_eq (n : ℤ) : qOfInt n = (n : ℚ) := by
  have h1 : ((n : ℚ)).num = n := Rat.intCast_num n
  have h2 : ((n : ℚ)).den = 1 := Rat.intCast_den n
  apply Rat.ext <;> simp [qOfInt, h1, h2]

theorem qOfNat_eq (n : ℕ) : qOfNat n = (n : ℚ) := by
  rw [qOfNat, qOfInt_eq]
  push_cast
  rfl

theorem qHalf_eq : qHalf = 1 / 2 := by
  have h1 : ((1:ℚ)/2).num = 1 := by norm_num
  have h2 : ((1:ℚ)/2).den = 2 := by norm_num
  apply Rat.ext <;> simp [qHalf, h1, h2]

theorem qAdd_eq (a b : ℚ) : qAdd a b = a + b := by
  have ha : ((a.den : ℚ)) ≠ 0 := by exact_mod_cast a.den_nz
  have hb : ((b.den : ℚ)) ≠ 0 := by exact_mod_cast b.den_nz
  rw [qAdd, Rat.normalize_eq_mkRat, Rat.mkRat_eq_div]
  push_cast
  conv_rhs => rw [← Rat.num_div_den a, ← Rat.num_div_den b]
  rw [div_add_div _ _ ha hb]
  ring_nf

theorem qNeg_eq (a : ℚ) : qNeg a = -a := by
  rw [qNeg, Rat.normalize_eq_mkRat, Rat.mkRat_eq_div]
  push_cast
  rw [neg_div, Rat.num_div_den]

theorem qSub_eq (a b : ℚ) : qSub a b = a - b := by
  rw [qSub, qAdd_eq, qNeg_eq, sub_eq_add_neg]

theorem qMul_eq (a b : ℚ) : qMul a b = a * b := by
  rw [qMul, Rat.normalize_eq_mkRat, Rat.mkRat_eq_div]
  push_cast
  conv_rhs => rw [← Rat.num_div_den a, ← Rat.num_div_den b]
  rw [div_mul_div_comm]

theorem qDiv_eq (a b : ℚ) : qDiv a b = a / b := by
  rw [qDiv]
  by_cases h : b.num = 0
  · rw [dif_pos h]
    have hb : b = 0 := by rwa [Rat.num_eq_zero] at h
    rw [hb, div_zero]
    rfl
  · rw [dif_neg h]
    have ha : ((a.den : ℚ)) ≠ 0 := by exact_mod_cast a.den_nz
    have hbd : ((b.den : ℚ)) ≠ 0 := by exact_mod_cast b.den_nz
    have hbn : ((b.num : ℚ)) ≠ 0 := by exact_mod_cast h
    have key : a / b = ((a.num : ℚ) * b.den) / ((a.den : ℚ) * b.num) := by
      conv_lhs => rw [← Rat.num_div_den a, ← Rat.num_div_den b]
      rw [div_div_eq_mul_div, div_mul_eq_mul_div, div_div]
    rw [Rat.normalize_eq_mkRat, Rat.mkRat_eq_div, key]
    have hden : ((a.den : ℚ)) * b.num ≠ 0 := mul_ne_zero ha hbn
    have hnat : (((a.den * b.num.natAbs : ℕ)) : ℚ) ≠ 0 := by
      have : a.den * b.num.natAbs ≠ 0 :=
        Nat.mul_ne_zero a.den_nz (Int.natAbs_ne_zero.mpr h)
      exact_mod_cast this
    rw [div_eq_div_iff hnat hden]
    rcases le_or_lt 0 b.num with hs | hs
    · rw [if_pos hs]
      have habs : |b.num| = b.num := abs_of_nonneg hs
      push_cast [Int.cast_natAbs, habs]
      ring
    · rw [if_neg (not_le.mpr hs)]
      have habs : |b.num| = -b.num := abs_of_neg hs
      push_cast [Int.cast_natAbs, habs]
      ring

theorem qAbs_eq (a : ℚ) : qAbs a = |a| := by
  rw [qAbs]
  by_cases h : 0 ≤ a.num
  · rw [if_pos h, abs_of_nonneg (Rat.num_nonneg.mp h)]
  · rw [if_neg h, qNeg_eq, abs_of_neg]
    push_neg at h
    exact Rat.num_neg.mp h

theorem qMax_eq (a b : ℚ) : qMax a b = max a b := by
  rw [qMax, max_def]

theorem ratFloorZ_nonneg (q : ℚ) (h : 0 ≤ q) : 0 ≤ ratFloorZ q := by
  rw [ratFloorZ]
  exact Int.ediv_nonneg (Rat.num_nonneg.mpr h) (by positivity)

theorem pyRoundInt_nonneg (q : ℚ) (h : 0 ≤ q) : 0 ≤ pyRoundInt q := by
  have hf : 0 ≤ ratFloorZ q := ratFloorZ_nonneg q h
  rw [pyRoundInt]
  split
  · exact hf
  · split
    · omega
    · split <;> omega

theorem pyRound4_nonneg (q : ℚ) (h : 0 ≤ q) : 0 ≤ pyRound4 q := by
  rw [pyRound4, qDiv_eq, qOfInt_eq, qOfNat_eq]
  apply div_nonneg
  · have : 0 ≤ qMul q (qOfNat 10000) := by
      rw [qMul_eq, qOfNat_eq]
      exact mul_nonneg h (by norm_num)
    exact_mod_cast pyRoundInt_nonneg _ this
  · norm_num

theorem bonusFactor_bounds (b : Option String) :
    0 < bonusFactor b ∧ bonusFactor b ≤ 1 := by
  have h1 : (0:ℚ) < qOfNat 1 ∧ qOfNat 1 ≤ 1 := by rw [qOfNat_eq]; norm_num
  match b with
  | none => exact h1
  | some s =>
    rw [bonusFactor]
    by_cases he : s = ""
    · rw [if_pos he]
      exact h1
    · rw [if_neg he]
      rcases hperc : matchPercBonus s.data with _ | p
      · rcases hplus : matchPlusBonus s.data with _ | ⟨buy, free⟩
        · simp only [hplus, hperc]
          exact h1
        · simp only [hplus, hperc]
          by_cases hb : 0 < buy
          · rw [if_pos hb, qDiv_eq, qOfNat_eq, qOfNat_eq]
            have hbq : (0:ℚ) < (buy : ℚ) := by exact_mod_cast hb
            have hfq : (0:ℚ) ≤ (free : ℚ) := by positivity
            have hsum : (0:ℚ) < ((buy + free : ℕ) : ℚ) := by push_cast; linarith
            constructor
            · exact div_pos hbq hsum
            · rw [div_le_one hsum]
              push_cast
              linarith
          · rw [if_neg hb]
            exact h1
      · simp only [hperc]
        rw [qDiv_eq, qOfNat_eq, qOfNat_eq]
        have hsum : (0:ℚ) < ((100 + p : ℕ) : ℚ) := by positivity
        constructor
        · exact div_pos (by norm_num) hsum
        · rw [div_le_one hsum]
          push_cast
          linarith [Nat.cast_nonneg (α := ℚ) p]

theorem bestFold_keep (p : ℚ) (cost : Nat → ℚ) :
    ∀ (l : List Cand) (b : Nat × ℚ),
      (∀ x ∈ l, b.2 ≤ qAbs (qSub p (cost x.1))) →
      l.foldl (bestStep p cost) (some b) = some b := by
  intro l
  induction l with
  | nil => intro b _; rfl
  | cons y ys ih =>
    intro b h
    rw [List.foldl_cons]
    have hy : b.2 ≤ qAbs (qSub p (cost y.1)) := h y (List.mem_cons_self y ys)
    have hstep : bestStep p cost (some b) y = some b := by
      rw [bestStep]
      simp only [if_neg (not_lt.mpr hy)]
    rw [hstep]
    exact ih b (fun x hx => h x (List.mem_cons_of_mem y hx))

theorem bestFold_select (p : ℚ) (cost : Nat → ℚ) :
    ∀ (l1 : List Cand) (c : Cand) (l2 : List Cand) (b : Nat × ℚ),
      qAbs (qSub p (cost c.1)) < b.2 →
      (∀ x ∈ l1, qAbs (qSub p (cost c.1)) < qAbs (qSub p (cost x.1))) →
      (∀ x ∈ l2, qAbs (qSub p (cost c.1)) ≤ qAbs (qSub p (cost x.1))) →
      (l1 ++ c :: l2).foldl (bestStep p cost) (some b) =
        some (c.1, qAbs (qSub p (cost c.1))) := by
  intro l1
  induction l1 with
  | nil =>
    intro c l2 b hb _ h2
    rw [List.nil_append, List.foldl_cons]
    have hstep : bestStep p cost (some b) c =
        some (c.1, qAbs (qSub p (cost c.1))) := by
      rw [bestStep]
      simp only [if_pos hb]
    rw [hstep]
    exact bestFold_keep p cost l2 _ (fun x hx => h2 x hx)
  | cons y ys ih =>
    intro c l2 b hb h1 h2
    rw [List.cons_append, List.foldl_cons]
    have hy : qAbs (qSub p (cost c.1)) < qAbs (qSub p (cost y.1)) :=
      h1 y (List.mem_cons_self y ys)
    have h1' : ∀ x ∈ ys, qAbs (qSub p (cost c.1)) < qAbs (qSub p (cost x.1)) :=
      fun x hx => h1 x (List.mem_cons_of_mem y hx)
    rw [bestStep]
    split
    · exact ih c l2 _ hy h1' h2
    · exact ih c l2 b hb h1' h2

theorem bestFold_spec (p : ℚ) (cost : Nat → ℚ) :
    ∀ (l : List Cand) (b : Nat × ℚ),
      (l.foldl (bestStep p cost) (some b) = some b ∧
        ∀ x ∈ l, b.2 ≤ qAbs (qSub p (cost x.1))) ∨
      (∃ l1 c l2, l = l1 ++ c :: l2 ∧
        l.foldl (bestStep p cost) (some b) =
          some (c.1, qAbs (qSub p (cost c.1))) ∧
        qAbs (qSub p (cost c.1)) < b.2 ∧
        (∀ x ∈ l1, qAbs (qSub p (cost c.1)) < qAbs (qSub p (cost x.1))) ∧
        (∀ x ∈ l2, qAbs (qSub p (cost c.1)) ≤ qAbs (qSub p (cost x.1)))) := by
  intro l
  induction l with
  | nil => intro b; left; exact ⟨rfl, by simp⟩
  | cons y ys ih =>
    intro b
    rw [List.foldl_cons, bestStep]
    by_cases hy : qAbs (qSub p (cost y.1)) < b.2
    · rw [if_pos hy]
      rcases ih (y.1, qAbs (qSub p (cost y.1))) with ⟨heq, hall⟩ | ⟨l1, c, l2, hdec, heq, hlt, h1, h2⟩
      · right
        exact ⟨[], y, ys, rfl, heq, hy, by simp, hall⟩
      · right
        refine ⟨y :: l1, c, l2, by rw [hdec]; rfl, heq, lt_trans hlt hy, ?_, h2⟩
        intro x hx
        rcases List.mem_cons.mp hx with rfl | hx
        · exact hlt
        · exact h1 x hx
    · rw [if_neg hy]
      rcases ih b with ⟨heq, hall⟩ | ⟨l1, c, l2, hdec, heq, hlt, h1, h2⟩
      · left
        refine ⟨heq, ?_⟩
        intro x hx
        rcases List.mem_cons.mp hx with rfl | hx
        · exact not_lt.mp hy
        · exact hall x hx
      · right
        refine ⟨y :: l1, c, l2, by rw [hdec]; rfl, heq, hlt, ?_, h2⟩
        intro x hx
        rcases List.mem_cons.mp hx with rfl | hx
        · exact lt_of_lt_of_le hlt (not_lt.mp hy)
        · exact h1 x hx

theorem bestFold_exists (p : ℚ) (cost : Nat → ℚ) (c0 : Cand) (rest : List Cand) :
    ∃ l1 c l2, c0 :: rest = l1 ++ c :: l2 ∧
      (c0 :: rest).foldl (bestStep p cost) none =
        some (c.1, qAbs (qSub p (cost c.1))) ∧
      (∀ x ∈ l1, qAbs (qSub p (cost c.1)) < qAbs (qSub p (cost x.1))) ∧
      (∀ x ∈ c0 :: rest, qAbs (qSub p (cost c.1)) ≤ qAbs (qSub p (cost x.1))) := by
  have hhead : (c0 :: rest).foldl (bestStep p cost) none =
      rest.foldl (bestStep p cost) (some (c0.1, qAbs (qSub p (cost c0.1)))) := by
    rw [List.foldl_cons]
    rfl
  rcases bestFold_spec p cost rest (c0.1, qAbs (qSub p (cost c0.1))) with
    ⟨heq, hall⟩ | ⟨l1, c, l2, hdec, heq, hlt, h1, h2⟩
  · refine ⟨[], c0, rest, rfl, by rw [hhead, heq], by simp, ?_⟩
    intro x hx
    rcases List.mem_cons.mp hx with rfl | hx
    · exact le_refl _
    · exact hall x hx
  · refine ⟨c0 :: l1, c, l2, by rw [hdec]; rfl, by rw [hhead, heq], ?_, ?_⟩
    · intro x hx
      rcases List.mem_cons.mp hx with rfl | hx
      · exact hlt
      · exact h1 x hx
    · intro x hx
      rcases List.mem_cons.mp hx with rfl | hx
      · exact le_of_lt hlt
      · rw [hdec] at hx
        rcases List.mem_append.mp hx with hx | hx
        · exact le_of_lt (h1 x hx)
        · rcases List.mem_cons.mp hx with rfl | hx
          · exact le_refl _
          · exact h2 x hx

theorem append_cons_eq_parts {α : Type} {e : α} :
    ∀ {l1 l1' : List α} {l2 l2' : List α},
      l1 ++ e :: l2 = l1' ++ e :: l2' → e ∉ l1 → e ∉ l1' → l1 = l1' ∧ l2 = l2'
  | [], [], l2, l2', h, _, _ => by
    rw [List.nil_append, List.nil_append] at h
    exact ⟨rfl, by injection h⟩
  | [], x :: t', l2, l2', h, _, h1' => by
    rw [List.nil_append, List.cons_append] at h
    injection h with hx ht
    subst hx
    exact absurd (List.mem_cons_self _ _) h1'
  | x :: t, [], l2, l2', h, h1, _ => by
    rw [List.cons_append, List.nil_append] at h
    injection h with hx ht
    subst hx
    exact absurd (List.mem_cons_self _ _) h1
  | x :: t, y :: t', l2, l2', h, h1, h1' => by
    rw [List.cons_append, List.cons_append] at h
    injection h with hx ht
    subst hx
    have hr := append_cons_eq_parts ht (fun hm => h1 (List.mem_cons_of_mem _ hm))
      (fun hm => h1' (List.mem_cons_of_mem _ hm))
    exact ⟨by rw [hr.1], hr.2⟩

theorem mem_insertCandDesc (x c : Cand) :
    ∀ (l : List Cand), x ∈ insertCandDesc c l ↔ x = c ∨ x ∈ l
  | [] => by simp [insertCandDesc]
  | y :: ys => by
    rw [insertCandDesc]
    by_cases hle : y.2.1 ≤ c.2.1
    · rw [if_pos hle]
      simp [List.mem_cons]
    · rw [if_neg hle, List.mem_cons, mem_insertCandDesc x c ys, List.mem_cons]
      tauto

theorem mem_sortCandDesc (x : Cand) : ∀ (l : List Cand), x ∈ sortCandDesc l ↔ x ∈ l
  | [] => Iff.rfl
  | y :: ys => by
    rw [sortCandDesc, mem_insertCandDesc, mem_sortCandDesc x ys, List.mem_cons]

theorem length_insertCandDesc (c : Cand) :
    ∀ (l : List Cand), (insertCandDesc c l).length = l.length + 1
  | [] => rfl
  | y :: ys => by
    rw [insertCandDesc]
    by_cases hle : y.2.1 ≤ c.2.1
    · rw [if_pos hle]
      rfl
    · rw [if_neg hle, List.length_cons, length_insertCandDesc c ys,
        List.length_cons]

theorem length_sortCandDesc : ∀ (l : List Cand), (sortCandDesc l).length = l.length
  | [] => rfl
  | y :: ys => by
    rw [sortCandDesc, length_insertCandDesc, length_sortCandDesc ys,
      List.length_cons]

theorem pairwise_insertCandDesc (c : Cand) :
    ∀ (l : List Cand), l.Pairwise (fun a b : Cand => b.2.1 ≤ a.2.1) →
      (insertCandDesc c l).Pairwise (fun a b : Cand => b.2.1 ≤ a.2.1)
  | [], _ => by simp [insertCandDesc]
  | y :: ys, h => by
    rw [insertCandDesc]
    rcases List.pairwise_cons.mp h with ⟨hy, hys⟩
    by_cases hle : y.2.1 ≤ c.2.1
    · rw [if_pos hle]
      refine List.pairwise_cons.mpr ⟨?_, h⟩
      intro b hb
      rcases List.mem_cons.mp hb with rfl | hb
      · exact hle
      · exact le_trans (hy b hb) hle
    · rw [if_neg hle]
      refine List.pairwise_cons.mpr ⟨?_, pairwise_insertCandDesc c ys hys⟩
      intro b hb
      rcases (mem_insertCandDesc b c ys).mp hb with rfl | hb
      · exact le_of_not_le hle
      · exact hy b hb

theorem sorted_sortCandDesc :
    ∀ (l : List Cand), (sortCandDesc l).Pairwise (fun a b : Cand => b.2.1 ≤ a.2.1)
  | [] => List.Pairwise.nil
  | y :: ys => pairwise_insertCandDesc y (sortCandDesc ys) (sorted_sortCandDesc ys)

set_option maxRecDepth 40000

theorem isPyDigit_pyToLower (c : Char) (h : isPyDigit c = false) :
    isPyDigit (pyToLower c) = false := by
  rw [pyToLower, Char.toLower]
  split
  · rename_i hc
    have hv : Nat.isValidChar (c.toNat + 32) := Or.inl (by omega)
    have ht : (Char.ofNat (c.toNat + 32)).toNat = c.toNat + 32 := by
      rw [Char.ofNat, dif_pos hv]
      rfl
    rw [isPyDigit, ht]
    have : ¬ (c.toNat + 32 ≤ 57) := by omega
    simp [this]
  · exact h

theorem spanP_no_sat (p : Char → Bool) (l : List Char)
    (h : ∀ c ∈ l, p c = false) : spanP p l = ([], l) := by
  cases l with
  | nil => rfl
  | cons c r =>
    rw [spanP, if_neg]
    rw [h c (List.mem_cons_self c r)]
    simp

theorem firstIntSub_no_digit (l : List Char)
    (h : ∀ c ∈ l, isPyDigit c = false) : firstIntSub l = none := by
  induction l with
  | nil => rfl
  | cons c r ih =>
    rw [firstIntSub, if_neg]
    · exact ih (fun x hx => h x (List.mem_cons_of_mem c hx))
    · rw [h c (List.mem_cons_self c r)]
      simp

theorem parse_pack_size_no_digit (s : String)
    (h : ∀ c ∈ s.data, isPyDigit c = false) :
    parse_pack_size (PackInput.pstr s) = 1 := by
  by_cases he : s = ""
  · rw [parse_pack_size, if_pos]
    rw [packFalsy]
    simp [he]
  · rw [parse_pack_size, if_neg]
    · have hlow : ∀ c ∈ pyLowerL (pyStrOfPack (PackInput.pstr s)),
          isPyDigit c = false := by
        intro c hc
        rw [pyStrOfPack, pyLowerL] at hc
        obtain ⟨a, ha, rfl⟩ := List.mem_map.mp hc
        exact isPyDigit_pyToLower a (h a ha)
      have hmx : matchPackX (pyLowerL (pyStrOfPack (PackInput.pstr s))) = none := by
        rw [matchPackX]
        rw [spanP_no_sat _ _ hlow]
        simp
      have hfi : firstIntSub (pyLowerL (pyStrOfPack (PackInput.pstr s))) = none :=
        firstIntSub_no_digit _ hlow
      simp only [hmx, hfi]
    · rw [packFalsy]
      simp [he]

theorem bestFold_select_none (p : ℚ) (cost : Nat → ℚ)
    (l1 : List Cand) (c : Cand) (l2 : List Cand)
    (h1 : ∀ x ∈ l1, qAbs (qSub p (cost c.1)) < qAbs (qSub p (cost x.1)))
    (h2 : ∀ x ∈ l2, qAbs (qSub p (cost c.1)) ≤ qAbs (qSub p (cost x.1))) :
    (l1 ++ c :: l2).foldl (bestStep p cost) none =
      some (c.1, qAbs (qSub p (cost c.1))) := by
  cases l1 with
  | nil =>
    rw [List.nil_append, List.foldl_cons]
    have hstep : bestStep p cost none c = some (c.1, qAbs (qSub p (cost c.1))) := rfl
    rw [hstep]
    exact bestFold_keep p cost l2 _ h2
  | cons x t =>
    rw [List.cons_append, List.foldl_cons]
    have hstep : bestStep p cost none x = some (x.1, qAbs (qSub p (cost x.1))) := rfl
    rw [hstep]
    exact bestFold_select p cost t c l2 _
      (h1 x (List.mem_cons_self x t))
      (fun y hy => h1 y (List.mem_cons_of_mem x hy)) h2

theorem bestFold_argmin (p : ℚ) (cost : Nat → ℚ) (l : List Cand)
    (hne : l ≠ []) :
    ∃ l1 c l2, l = l1 ++ c :: l2 ∧
      l.foldl (bestStep p cost) none = some (c.1, qAbs (qSub p (cost c.1))) ∧
      (∀ x ∈ l1, qAbs (qSub p (cost c.1)) < qAbs (qSub p (cost x.1))) ∧
      (∀ x ∈ l, qAbs (qSub p (cost c.1)) ≤ qAbs (qSub p (cost x.1))) := by
  cases l with
  | nil => exact absurd rfl hne
  | cons c0 rest => exact bestFold_exists p cost c0 rest

/-- C1: when a stored alias has exactly the raw name as its text
(case-sensitive), `fuzzy_match` returns that alias target catalog row
with score 100 and the combined High-confidence Alias tag of the source,
for every catalog snapshot and every price; no fuzzy scoring is
consulted.  The alias hypothesis is the first matching alias row, and the
target row is read through the foreign key. -/
theorem alias_exact_short_circuit (raw_name : String)
    (masters : List MasterProduct) (aliases : List ProductAlias)
    (supplier_price : Option ℚ) (al : ProductAlias) (m : MasterProduct)
    (hal : aliases.find? (fun a => a.alias_name == raw_name) = some al)
    (hm : masters.find? (fun mm => mm.id == al.master_product_id) = some m) :
    fuzzy_match raw_name masters aliases supplier_price =
      some ⟨m.product_name, m.id, qOfNat 100, "High (Alias)"⟩ := by
  simp only [fuzzy_match, hal, hm]

/-- C1 spot check: a stored alias resolves to its target over the
two-row catalog, at a price that would otherwise disambiguate. -/
theorem alias_exact_short_circuit_spot :
    fuzzy_match "Panadol Blue Tabs (24s)" catPair
      [⟨"Panadol Blue Tabs (24s)", 1⟩] (some (qOfNat 5)) =
      some ⟨"PANADOL ADVANCE 24", 1, qOfNat 100, "High (Alias)"⟩ :=
  alias_exact_short_circuit "Panadol Blue Tabs (24s)" catPair
    [⟨"Panadol Blue Tabs (24s)", 1⟩] (some (qOfNat 5))
    ⟨"Panadol Blue Tabs (24s)", 1⟩
    ⟨1, some "X", "PANADOL ADVANCE 24", some (qOfNat 10)⟩
    (by decide) (by decide)

/-- C7: resolving any raw name against a catalog with no entries yields
the explicit no-match result, for every price and every alias snapshot
satisfying the referential integrity of the many-to-one alias relation
(with no catalog rows, no alias can reference one). -/
theorem empty_catalog_no_match (raw_name : String)
    (aliases : List ProductAlias) (supplier_price : Option ℚ)
    (hfk : ∀ a ∈ aliases,
      ((([] : List MasterProduct)).find?
        (fun m => m.id == a.master_product_id)).isSome) :
    fuzzy_match raw_name [] aliases supplier_price = none := by
  rcases hal : aliases.find? (fun a => a.alias_name == raw_name) with _ | al
  · simp only [fuzzy_match, hal, List.isEmpty_nil, if_true]
  · have hmem : al ∈ aliases := List.mem_of_find?_eq_some hal
    have hsome := hfk al hmem
    rw [List.find?_nil] at hsome
    simp at hsome

/-- C7 spot check: the empty catalog with the empty alias snapshot
yields no match. -/
theorem empty_catalog_no_match_spot :
    fuzzy_match "Anything" [] [] none = none :=
  empty_catalog_no_match "Anything" [] none (by intro a ha; cases ha)

/-- C2: whenever the merged candidate list has more than one close match
and a positive supplier price was supplied, the disambiguation loop of
`fuzzy_match` selects the close match whose cost has the smallest
absolute difference from the price, earlier close matches (in the
score-descending candidate order) winning ties; in particular, on the
two-row catalog with identical canonical names and standard costs 10 and
35, price 11 resolves to the cost-10 row and price 33 to the cost-35
row, end to end. -/
theorem price_disambiguation_nearest (p : ℚ) (cost : Nat → ℚ)
    (close : List Cand) (hp : 0 < p) (hlen : 1 < close.length) :
    (∃ l1 c l2, close = l1 ++ c :: l2 ∧
      close.foldl (bestStep p cost) none = some (c.1, qAbs (qSub p (cost c.1))) ∧
      (∀ x ∈ l1, |p - cost c.1| < |p - cost x.1|) ∧
      (∀ x ∈ close, |p - cost c.1| ≤ |p - cost x.1|)) ∧
    fuzzy_match "X" catPair [] (some (qOfNat 11)) =
      some ⟨"PANADOL ADVANCE 24", 1, qOfNat 100, "High"⟩ ∧
    fuzzy_match "X" catPair [] (some (qOfNat 33)) =
      some ⟨"PANADOL ADVANCE 96", 2, qOfNat 100, "High"⟩ := by
  refine ⟨?_, by decide, by decide⟩
  have hne : close ≠ [] := by
    intro h
    rw [h] at hlen
    simp at hlen
  obtain ⟨l1, c, l2, hdec, heq, h1, hall⟩ := bestFold_argmin p cost close hne
  simp only [qAbs_eq, qSub_eq] at h1 hall
  exact ⟨l1, c, l2, hdec, heq, h1, hall⟩

/-- C2 spot check: at price 11 over the cost-10 and cost-35 rows, the
resolver picks the cost-10 row. -/
theorem price_disambiguation_nearest_spot :
    fuzzy_match "X" catPair [] (some (qOfNat 11)) =
      some ⟨"PANADOL ADVANCE 24", 1, qOfNat 100, "High"⟩ :=
  (price_disambiguation_nearest (qOfNat 11) (masterCost catPair)
    [(1, qOfNat 100, "token_sort_ratio"), (2, qOfNat 100, "token_sort_ratio")]
    (by decide) (by decide)).2.1

/-- C10: in the price-disambiguation loop, a close match whose master row
has no standard cost is compared as cost zero, so it is selected exactly
when the supplied positive price is strictly closer to zero than to the
cost of every earlier close match and at least as close as to the cost of
every later one — earlier candidates winning ties.  The id of the entry
in question is assumed not to recur in the other close matches, as holds
when each catalog row contributes one close match. -/
theorem missing_cost_zero_disambiguation (price : ℚ)
    (masters : List MasterProduct) (l1 l2 : List Cand) (e : Cand)
    (m : MasterProduct)
    (hm : masters.find? (fun mm => mm.id == e.1) = some m)
    (hcost : m.standard_cost = none)
    (hp : 0 < price)
    (hid1 : e.1 ∉ l1.map Prod.fst) (hid2 : e.1 ∉ l2.map Prod.fst) :
    ((∃ d, (l1 ++ e :: l2).foldl (bestStep price (masterCost masters)) none =
        some (e.1, d)) ↔
      ((∀ x ∈ l1, price < |price - masterCost masters x.1|) ∧
       (∀ x ∈ l2, price ≤ |price - masterCost masters x.1|))) := by
  have hce : masterCost masters e.1 = qOfNat 0 := by
    simp only [masterCost, hm, hcost]
  have hde : qAbs (qSub price (masterCost masters e.1)) = price := by
    rw [hce, qAbs_eq, qSub_eq, qOfNat_eq]
    push_cast
    rw [sub_zero]
    exact abs_of_pos hp
  constructor
  · rintro ⟨d, hd⟩
    obtain ⟨l1f, c, l2f, hdec, heq, h1, hall⟩ :=
      bestFold_argmin price (masterCost masters) (l1 ++ e :: l2)
        (by simp)
    rw [heq] at hd
    have hpair := Option.some.inj hd
    rw [Prod.mk.injEq] at hpair
    obtain ⟨hid, hdd⟩ := hpair
    -- the argmin candidate is the entry itself
    have hceq : c = e := by
      have hcmem : c ∈ l1 ++ e :: l2 := by
        rw [hdec]
        exact List.mem_append_right _ (List.mem_cons_self _ _)
      rcases List.mem_append.mp hcmem with hcl | hcr
      · exact absurd (by rw [← hid]; exact List.mem_map_of_mem Prod.fst hcl) hid1
      · rcases List.mem_cons.mp hcr with h | hcl2
        · exact h
        · exact absurd (by rw [← hid]; exact List.mem_map_of_mem Prod.fst hcl2) hid2
    subst hceq
    have hnotmem1 : c ∉ l1 := fun hmem =>
      hid1 (List.mem_map_of_mem Prod.fst hmem)
    have hnotmem1f : c ∉ l1f := fun hmem => by
      have := h1 c hmem
      exact absurd this (lt_irrefl _)
    obtain ⟨hl1, hl2⟩ := append_cons_eq_parts hdec hnotmem1 hnotmem1f
    subst hl1
    subst hl2
    constructor
    · intro x hx
      have := h1 x hx
      rw [hde] at this
      simpa [qAbs_eq, qSub_eq] using this
    · intro x hx
      have := hall x (by
        rw [hdec]
        exact List.mem_append_right _ (List.mem_cons_of_mem _ hx))
      rw [hde] at this
      simpa [qAbs_eq, qSub_eq] using this
  · rintro ⟨hlt, hle⟩
    refine ⟨qAbs (qSub price (masterCost masters e.1)), ?_⟩
    apply bestFold_select_none
    · intro x hx
      rw [hde]
      have := hlt x hx
      simpa [qAbs_eq, qSub_eq] using this
    · intro x hx
      rw [hde]
      have := hle x hx
      simpa [qAbs_eq, qSub_eq] using this

/-- C10 spot check: a close match of missing standard cost followed by a
close match whose id is absent from the catalog (also compared as zero),
at price 5. -/
theorem missing_cost_zero_disambiguation_spot :
    ((∃ d, ([] ++ ((1 : Nat), qOfNat 100, "token_sort_ratio") ::
        [((2 : Nat), qOfNat 98, "token_sort_ratio")]).foldl
          (bestStep (qOfNat 5) (masterCost catOne)) none =
        some (1, d)) ↔
      ((∀ x ∈ ([] : List Cand), qOfNat 5 < |qOfNat 5 - masterCost catOne x.1|) ∧
       (∀ x ∈ [((2 : Nat), qOfNat 98, "token_sort_ratio")],
         qOfNat 5 ≤ |qOfNat 5 - masterCost catOne x.1|))) :=
  missing_cost_zero_disambiguation (qOfNat 5) catOne []
    [((2 : Nat), qOfNat 98, "token_sort_ratio")]
    ((1 : Nat), qOfNat 100, "token_sort_ratio")
    ⟨1, some "X", "PANADOL ONE", none⟩
    (by decide) rfl (by decide) (by decide) (by decide)

/-- C3 counterexample: the eleventh row of an eleven-row catalog meets
the token-sort cutoff for the query X, yet its id is absent from the
merged candidate list — each scorer keeps only its best ten results, so
a qualifying entry can be dropped, contrary to the claim. -/
theorem candidate_truncation_cex :
    (11 ∈ catEleven.map (fun m => m.id)) ∧
    MATCH_CUTOFF_TOKEN_SORT ≤
      fuzzTokenSortQ "X" (searchText ⟨11, some "X", "P11", none⟩) ∧
    ¬ (11 ∈ (all_candidates "X" catEleven).map (fun c => c.1)) := by
  decide

/-- C3 (amended): every merged candidate list is sorted by score
descending, and a catalog row meeting a scorer cutoff is retained
whenever at most ten rows qualify for that scorer; with more than ten
qualifying rows only the best ten of that scorer survive. -/
theorem candidate_generation_top_ten (query : String)
    (masters : List MasterProduct)
    (t : (String → String → ℚ) × ℚ × String) (ht : t ∈ scorerList)
    (m : MasterProduct) (hm : m ∈ masters)
    (hsc : t.2.1 ≤ t.1 query (searchText m))
    (hfew : (extractPool query masters t.1 t.2.1 t.2.2).length ≤ 10) :
    (m.id, t.1 query (searchText m), t.2.2) ∈ all_candidates query masters ∧
    (all_candidates query masters).Pairwise (fun a b : Cand => b.2.1 ≤ a.2.1) := by
  constructor
  · have hpool : (m.id, t.1 query (searchText m), t.2.2) ∈
        extractPool query masters t.1 t.2.1 t.2.2 := by
      rw [extractPool]
      refine List.mem_filterMap.mpr ⟨m, hm, ?_⟩
      simp only [if_pos hsc]
    have htop : (m.id, t.1 query (searchText m), t.2.2) ∈
        extractTop query masters t.1 t.2.1 t.2.2 := by
      rw [extractTop, List.take_of_length_le]
      · exact (mem_sortCandDesc _ _).mpr hpool
      · rw [length_sortCandDesc]
        exact hfew
    rw [all_candidates]
    refine (mem_sortCandDesc _ _).mpr ?_
    exact List.mem_flatten.mpr
      ⟨extractTop query masters t.1 t.2.1 t.2.2,
       List.mem_map.mpr ⟨t, ht, rfl⟩, htop⟩
  · rw [all_candidates]
    exact sorted_sortCandDesc _

/-- C3 spot check: with a one-row catalog the qualifying row is present
in the merged candidate list, which is sorted. -/
theorem candidate_generation_top_ten_spot :
    ((1 : Nat),
      fuzzTokenSortQ "X" (searchText ⟨1, some "X", "PANADOL ONE", none⟩),
      "token_sort_ratio") ∈ all_candidates "X" catOne ∧
    (all_candidates "X" catOne).Pairwise (fun a b : Cand => b.2.1 ≤ a.2.1) :=
  candidate_generation_top_ten "X" catOne
    (fuzzTokenSortQ, MATCH_CUTOFF_TOKEN_SORT, "token_sort_ratio")
    (by rw [scorerList]; exact List.mem_cons_self _ _)
    ⟨1, some "X", "PANADOL ONE", none⟩
    (by rw [catOne]; exact List.mem_cons_self _ _)
    (by decide) (by decide)

/-- C4 counterexample: at price 1, pack-size text 2 and bonus text 1+2,
the normalized unit cost computed by `calculate_euc` differs from the
claimed round-of-the-already-rounded value: the source divides the
unrounded effective price (the code yields 0.1667, the claimed formula
0.1666). -/
theorem cost_double_rounding_cex :
    (calculate_euc (qOfNat 1) (parse_pack_size (PackInput.pstr "2"))
        (some "1+2")).2.2 ≠
      pyRound4 (qDiv
        (calculate_euc (qOfNat 1) (parse_pack_size (PackInput.pstr "2"))
          (some "1+2")).1
        (qOfInt (max 1 (parse_pack_size (PackInput.pstr "2"))))) := by
  decide

/-- C4 (amended): for every price at least zero, pack-size text and bonus
text, `calculate_euc` composed with `parse_pack_size` returns the
effective unit price rounded to four decimals and the normalized unit
cost obtained by dividing the UNROUNDED effective price by the pack size
clamped to at least one and rounding the quotient to four decimals; both
outputs are non-negative. -/
theorem cost_normalization_amended (price : ℚ) (pi : PackInput)
    (bonus : Option String) (hp : 0 ≤ price) :
    calculate_euc price (parse_pack_size pi) bonus =
      (pyRound4 (price * bonusFactor bonus), 0,
       pyRound4 (price * bonusFactor bonus /
         ((max 1 ((parse_pack_size pi : ℕ) : ℤ) : ℤ) : ℚ))) ∧
    0 ≤ (calculate_euc price (parse_pack_size pi) bonus).1 ∧
    0 ≤ (calculate_euc price (parse_pack_size pi) bonus).2.2 := by
  have hb := bonusFactor_bounds bonus
  have heff : 0 ≤ price * bonusFactor bonus := mul_nonneg hp (le_of_lt hb.1)
  have hpk : (0:ℚ) < ((max 1 ((parse_pack_size pi : ℕ) : ℤ) : ℤ) : ℚ) := by
    have h1 : (1:ℤ) ≤ max 1 ((parse_pack_size pi : ℕ) : ℤ) := le_max_left _ _
    have : (0:ℤ) < max 1 ((parse_pack_size pi : ℕ) : ℤ) :=
      lt_of_lt_of_le zero_lt_one h1
    exact_mod_cast this
  have h02 : pyRound2 (qOfNat 0) = 0 := by decide
  refine ⟨?_, ?_, ?_⟩
  · simp only [calculate_euc]
    rw [qMul_eq, qDiv_eq, qOfInt_eq, h02]
  · simp only [calculate_euc]
    apply pyRound4_nonneg
    rw [qMul_eq]
    exact heff
  · simp only [calculate_euc]
    apply pyRound4_nonneg
    rw [qDiv_eq, qMul_eq, qOfInt_eq]
    exact div_nonneg heff (le_of_lt hpk)

/-- C4 spot check: non-negative effective unit price at price 100, pack
text 10, bonus 10+2. -/
theorem cost_normalization_amended_spot :
    0 ≤ (calculate_euc (qOfNat 100)
      (parse_pack_size (PackInput.pstr "10")) (some "10+2")).1 :=
  (cost_normalization_amended (qOfNat 100) (PackInput.pstr "10")
    (some "10+2") (by decide)).2.1

/-- C5 counterexample: the percent pattern of the source allows no
whitespace between the digits and the percent sign, so the claimed form
with whitespace before the percent sign is not recognized (multiplier 1
instead of 100/110); and the patterns match as prefixes, so trailing
text after a plus form still applies the bonus (10/12 instead of the
claimed 1). -/
theorem bonus_grammar_cex :
    bonusFactor (some "Bonus 10 %") = qOfNat 1 ∧
    qOfNat 1 ≠ qDiv (qOfNat 100) (qOfNat 110) ∧
    bonusFactor (some "10+2 pcs") = qDiv (qOfNat 10) (qOfNat 12) ∧
    qDiv (qOfNat 10) (qOfNat 12) ≠ qOfNat 1 := by
  decide

/-- C5 (amended): the bonus factor of `calculate_euc` always lies in the
half-open interval from zero exclusive to one inclusive; text starting
with a buy-plus-free or buy-slash-free pattern with positive buy yields
buy over buy plus free (trailing text ignored); text starting with the
case-insensitive Bonus-percent pattern, whitespace allowed only after the
word Bonus, yields 100 over 100 plus percent; absent or empty text, a
zero buy quantity and all other text leave the factor at one (fail
open). -/
theorem bonus_interpretation_amended :
    (∀ b : Option String, 0 < bonusFactor b ∧ bonusFactor b ≤ 1) ∧
    bonusFactor (some "10+2") = qDiv (qOfNat 10) (qOfNat 12) ∧
    bonusFactor (some "10/2") = qDiv (qOfNat 10) (qOfNat 12) ∧
    bonusFactor (some "10+2 pcs") = qDiv (qOfNat 10) (qOfNat 12) ∧
    bonusFactor (some "Bonus 10%") = qDiv (qOfNat 100) (qOfNat 110) ∧
    bonusFactor (some "bonus 5%") = qDiv (qOfNat 100) (qOfNat 105) ∧
    bonusFactor none = qOfNat 1 ∧
    bonusFactor (some "") = qOfNat 1 ∧
    bonusFactor (some "0+5") = qOfNat 1 ∧
    bonusFactor (some "Bonus 10 %") = qOfNat 1 ∧
    bonusFactor (some "Bonus 2.5%") = qOfNat 1 ∧
    bonusFactor (some "no deal") = qOfNat 1 :=
  ⟨bonusFactor_bounds, by decide, by decide, by decide, by decide, by decide,
   by decide, by decide, by decide, by decide, by decide, by decide⟩

/-- C6 counterexample: the pack-size text 0 parses to zero, violating the
claimed lower bound of one; and the multiplicative pattern is anchored at
the start of the text, so a later x-pattern falls through to the
first-integer rule instead of the claimed product. -/
theorem pack_size_zero_cex :
    parse_pack_size (PackInput.pstr "0") = 0 ∧
    ¬ (1 ≤ parse_pack_size (PackInput.pstr "0")) ∧
    parse_pack_size (PackInput.pstr "abc 10x10") = 10 ∧
    parse_pack_size (PackInput.pstr "abc 10x10") ≠ 100 := by
  decide

/-- C6 (amended): `parse_pack_size` never raises: falsy input (null, the
empty string, the number zero) gives one, text without digits gives one,
a leading multiplicative pattern gives the product of its two integers,
and otherwise the first integer substring is returned as is — so the
result is zero, not one, when that integer or product is zero. -/
theorem pack_size_rules_amended :
    (∀ pi : PackInput, packFalsy pi = true → parse_pack_size pi = 1) ∧
    (∀ s : String, (∀ c ∈ s.data, isPyDigit c = false) →
      parse_pack_size (PackInput.pstr s) = 1) ∧
    parse_pack_size PackInput.pnone = 1 ∧
    parse_pack_size (PackInput.pstr "") = 1 ∧
    parse_pack_size (PackInput.pint 0) = 1 ∧
    parse_pack_size (PackInput.pstr "10x10") = 100 ∧
    parse_pack_size (PackInput.pstr "3 x 10") = 30 ∧
    parse_pack_size (PackInput.pstr "5*20") = 100 ∧
    parse_pack_size (PackInput.pstr "24s") = 24 ∧
    parse_pack_size (PackInput.pstr "100ml") = 100 ∧
    parse_pack_size (PackInput.pstr "bottle") = 1 ∧
    parse_pack_size (PackInput.pint (-2)) = 2 ∧
    parse_pack_size (PackInput.pstr "0") = 0 := by
  refine ⟨?_, parse_pack_size_no_digit, ?_, ?_, ?_, ?_, ?_, ?_, ?_, ?_, ?_, ?_, ?_⟩
  · intro pi h
    rw [parse_pack_size, if_pos h]
  all_goals decide

/-- C8 counterexample: simplifying the non-empty display name BP yields
the empty string — the noise stripping discards every token and nothing
falls back to the original name. -/
theorem simplify_noise_only_cex :
    simplify_product_name "BP" = "" ∧ "BP" ≠ "" := by
  constructor
  · decide
  · decide

/-- C8 (amended): name simplification is total but has no fallback: a
non-empty display name made only of noise tokens simplifies to the empty
string, the empty name stays empty, and a name with a non-noise token
keeps it. -/
theorem simplify_degenerate_no_fallback :
    simplify_product_name "USP" = "" ∧
    simplify_product_name "BP, 24S" = "" ∧
    simplify_product_name "" = "" ∧
    simplify_product_name "PARACETAMOL" = "PARACETAMOL" := by
  refine ⟨by decide, by decide, by decide, by decide⟩

/-- C9: simplifying the scenario name drops the comma segment and the BP
token, but the truncation regex emits the matched keyword TABLET and
drops the trailing S, so the canonical form ends in TABLET, not in
TABLETS as the spec and the source docstring state. -/
theorem simplify_truncation_scenario :
    simplify_product_name scenarioRawName = "PARACETAMOL 500MG TABLET" ∧
    simplify_product_name scenarioRawName ≠ "PARACETAMOL 500MG TABLETS" := by
  refine ⟨by decide, by decide⟩
